import Mathlib

/-!
Verification of the text segmenter in `src/text.rs` of the `prlist`
repository.  The Rust function `parse` is a character-level finite-state
machine turning a raw string into a sequence of `TextElement`s (paragraphs
and list entries).  Strings are embedded as `List Char`; each Rust `match`
arm becomes a branch of the Lean `step` function, the `for` loop becomes a
structural recursion `run`, and the trailing flush becomes `flush`.
-/

namespace Prlist

/-- The `TextElement` enum from `src/text.rs`. -/
inductive TextElement where
  | Paragraph : List Char → TextElement
  | ListEntry : List Char → TextElement
deriving DecidableEq

/-- The local `State` enum inside `parse` in `src/text.rs`:
`Init`, `InParagraph { text, last }`, `InListEntry { text, text_started }`. -/
inductive MState where
  | Init : MState
  | InParagraph : List Char → Char → MState
  | InListEntry : List Char → Bool → MState
deriving DecidableEq

/-- Rust's `char::is_whitespace`: the Unicode `White_Space` property. -/
def rustIsWhitespace (c : Char) : Bool :=
  c = ' ' || c = '\t' || c = '\n' || c = '\x0b' || c = '\x0c' || c = '\r' ||
  c = '\u0085' || c = '\u00A0' || c = '\u1680' ||
  ('\u2000' ≤ c && c ≤ '\u200A') ||
  c = '\u2028' || c = '\u2029' || c = '\u202F' || c = '\u205F' || c = '\u3000'

/-- One iteration of the `for c in raw.chars()` loop body of `parse`:
given the current state and character, the next state and the elements
pushed onto `result` during this iteration (in order). -/
def step : MState → Char → MState × List TextElement
  | .Init, c =>
    if c = '\n' ∨ c = ' ' then (.Init, [])
    else if c = '-' ∨ c = '*' then (.InListEntry [] false, [])
    else (.InParagraph [c] c, [])
  | .InParagraph s last, c =>
    if c = '\n' then
      if last = '\n' then (.Init, [.Paragraph s])
      else (.InParagraph s '\n', [])
    else if last = '\n' then
      if c = ' ' then (.InParagraph s last, [])
      else if c = '-' ∨ c = '*' then (.InListEntry [] false, [.Paragraph s])
      else (.InParagraph (s ++ [' ', c]) c, [])
    else (.InParagraph (s ++ [c]) c, [])
  | .InListEntry text started, c =>
    if c = '\n' then (.Init, [.ListEntry text])
    else if started then (.InListEntry (text ++ [c]) true, [])
    else if rustIsWhitespace c then (.InListEntry text false, [])
    else (.InListEntry (text ++ [c]) true, [])

/-- The whole `for` loop of `parse`: runs `step` over the input characters,
returning the final state and all elements pushed, in push order. -/
def run : MState → List Char → MState × List TextElement
  | st, [] => (st, [])
  | st, c :: rest =>
    ((run (step st c).1 rest).1, (step st c).2 ++ (run (step st c).1 rest).2)

/-- The end-of-input `match state` of `parse`: the final flush. -/
def flush : MState → List TextElement
  | .Init => []
  | .InParagraph s _ => [.Paragraph s]
  | .InListEntry t _ => [.ListEntry t]

/-- The public Rust function `parse`: loop from `Init`, then flush. -/
def parse (raw : List Char) : List TextElement :=
  (run .Init raw).2 ++ flush (run .Init raw).1

@[simp] theorem run_nil (st : MState) : run st [] = (st, []) := rfl

theorem run_cons (st : MState) (c : Char) (rest : List Char) :
    run st (c :: rest) =
      ((run (step st c).1 rest).1, (step st c).2 ++ (run (step st c).1 rest).2) := rfl

theorem run_append (a b : List Char) : ∀ st : MState,
    run st (a ++ b) =
      ((run (run st a).1 b).1, (run st a).2 ++ (run (run st a).1 b).2) := by
  induction a with
  | nil => intro st; simp
  | cons c r ih =>
    intro st
    simp [run_cons, ih (step st c).1, List.append_assoc]

/-- Invariant satisfied by every paragraph accumulator: it is non-empty,
holds no raw newline, and does not begin with a space or a newline. -/
def paraOK (t : List Char) : Prop :=
  t ≠ [] ∧ '\n' ∉ t ∧ t.head? ≠ some ' ' ∧ t.head? ≠ some '\n'

/-- State invariant: an `InParagraph` accumulator always satisfies `paraOK`. -/
def stOK : MState → Prop
  | .InParagraph t _ => paraOK t
  | _ => True

/-- Output invariant: every emitted `Paragraph` satisfies `paraOK`. -/
def outOK (out : List TextElement) : Prop :=
  ∀ t, TextElement.Paragraph t ∈ out → paraOK t

theorem paraOK_append (t u : List Char) (h : paraOK t) (hu : '\n' ∉ u) :
    paraOK (t ++ u) := by
  obtain ⟨hne, hnl, hsp, hnl2⟩ := h
  refine ⟨by simp [hne], by simp [hnl, hu], ?_, ?_⟩
  · cases t with
    | nil => exact absurd rfl hne
    | cons a s => simpa using hsp
  · cases t with
    | nil => exact absurd rfl hne
    | cons a s => simpa using hnl2

theorem step_inv (st : MState) (c : Char) (h : stOK st) :
    stOK (step st c).1 ∧ outOK (step st c).2 := by
  cases st with
  | Init =>
    by_cases h1 : c = '\n' ∨ c = ' '
    · simp [step, h1, stOK, outOK]
    · by_cases h2 : c = '-' ∨ c = '*'
      · simp [step, h1, h2, stOK, outOK]
      · push_neg at h1
        simp [step, h1, h2, stOK, outOK, paraOK, h1.1, h1.2, Ne.symm h1.1, Ne.symm h1.2]
  | InParagraph s last =>
    have hs : paraOK s := h
    by_cases h1 : c = '\n'
    · by_cases h2 : last = '\n'
      · simp only [step, h1, h2, if_pos rfl]
        refine ⟨trivial, ?_⟩
        intro t ht
        simp at ht
        exact ht ▸ hs
      · simp [step, h1, h2, stOK, outOK]
        exact hs
    · by_cases h2 : last = '\n'
      · by_cases h3 : c = ' '
        · simp [step, h1, h2, h3, stOK, outOK]
          exact hs
        · by_cases h4 : c = '-' ∨ c = '*'
          · simp only [step, if_neg h1, if_pos h2, if_neg h3, if_pos h4]
            refine ⟨trivial, ?_⟩
            intro t ht
            simp at ht
            exact ht ▸ hs
          · simp only [step, if_neg h1, if_pos h2, if_neg h3, if_neg h4]
            refine ⟨?_, ?_⟩
            · exact paraOK_append s [' ', c] hs (by simp [Ne.symm h1])
            · intro t ht; simp at ht
      · simp only [step, if_neg h1, if_neg h2]
        refine ⟨?_, ?_⟩
        · exact paraOK_append s [c] hs (by simp [Ne.symm h1])
        · intro t ht; simp at ht
  | InListEntry text started =>
    by_cases h1 : c = '\n'
    · simp [step, h1, stOK, outOK]
    · by_cases h2 : started
      · simp [step, h1, h2, stOK, outOK]
      · by_cases h3 : rustIsWhitespace c
        · simp [step, h1, h2, h3, stOK, outOK]
        · simp [step, h1, h2, h3, stOK, outOK]

theorem run_inv : ∀ (l : List Char) (st : MState), stOK st →
    stOK (run st l).1 ∧ outOK (run st l).2 := by
  intro l
  induction l with
  | nil =>
    intro st h
    exact ⟨h, by intro t ht; simp at ht⟩
  | cons c rest ih =>
    intro st h
    obtain ⟨h1, h2⟩ := step_inv st c h
    obtain ⟨h3, h4⟩ := ih (step st c).1 h1
    rw [run_cons]
    refine ⟨h3, ?_⟩
    intro t ht
    rcases List.mem_append.mp ht with hm | hm
    · exact h2 t hm
    · exact h4 t hm

/-- Every `Paragraph` in the result of `parse` satisfies `paraOK`. -/
theorem parse_paraOK (l : List Char) (t : List Char)
    (h : TextElement.Paragraph t ∈ parse l) : paraOK t := by
  have hinv := run_inv l .Init trivial
  unfold parse at h
  rcases List.mem_append.mp h with hm | hm
  · exact hinv.2 t hm
  · rcases hst : (run MState.Init l).1 with _ | ⟨s, last⟩ | ⟨s, b⟩
    · rw [hst] at hm; simp [flush] at hm
    · rw [hst] at hm
      simp [flush] at hm
      have : paraOK s := by
        have := hinv.1
        rw [hst] at this
        exact this
      exact hm ▸ this
    · rw [hst] at hm; simp [flush] at hm

theorem step_ile_started (t : List Char) (c : Char) (hc : c ≠ '\n') :
    step (.InListEntry t true) c = (.InListEntry (t ++ [c]) true, []) := by
  simp [step, hc]

theorem step_ile_skip (t : List Char) (c : Char) (hc : c ≠ '\n')
    (hw : rustIsWhitespace c) :
    step (.InListEntry t false) c = (.InListEntry t false, []) := by
  simp [step, hc, hw]

theorem step_ile_start (t : List Char) (c : Char) (hc : c ≠ '\n')
    (hw : ¬ rustIsWhitespace c) :
    step (.InListEntry t false) c = (.InListEntry (t ++ [c]) true, []) := by
  simp [step, hc, hw]

theorem step_init_space : step .Init ' ' = (.Init, []) := by
  simp [step]

theorem run_listentry_started (r : List Char) (h : '\n' ∉ r) : ∀ t : List Char,
    run (.InListEntry t true) r = (.InListEntry (t ++ r) true, []) := by
  induction r with
  | nil => intro t; simp
  | cons c rest ih =>
    intro t
    have hc : c ≠ '\n' := fun he => h (he ▸ List.mem_cons_self c rest)
    have hr : '\n' ∉ rest := fun hm => h (List.mem_cons_of_mem c hm)
    rw [run_cons, step_ile_started t c hc]
    rw [ih hr (t ++ [c])]
    simp

theorem run_listentry_fresh (r : List Char) (h : '\n' ∉ r) :
    run (.InListEntry [] false) r =
      (.InListEntry (r.dropWhile rustIsWhitespace)
        (!(r.dropWhile rustIsWhitespace).isEmpty), []) := by
  induction r with
  | nil => simp
  | cons c rest ih =>
    have hc : c ≠ '\n' := fun he => h (he ▸ List.mem_cons_self c rest)
    have hr : '\n' ∉ rest := fun hm => h (List.mem_cons_of_mem c hm)
    rw [run_cons]
    by_cases hw : rustIsWhitespace c
    · rw [step_ile_skip [] c hc hw, ih hr]
      simp [List.dropWhile_cons, hw]
    · rw [step_ile_start [] c hc hw]
      simp only [List.nil_append]
      rw [run_listentry_started rest hr [c]]
      simp [List.dropWhile_cons, hw]

theorem run_init_spaces (k : Nat) :
    run .Init (List.replicate k ' ') = (.Init, []) := by
  induction k with
  | zero => simp
  | succ n ih =>
    rw [List.replicate_succ, run_cons, step_init_space, ih]
    simp

/-- Consuming a blank line (two consecutive newlines) from any state lands in
`Init` and emits exactly what the end-of-input flush of that state would. -/
theorem run_two_newlines (st : MState) :
    run st ['\n', '\n'] = (.Init, flush st) := by
  cases st with
  | Init => rfl
  | InParagraph s last =>
    by_cases h : last = '\n'
    · subst h; rfl
    · rw [run_cons]
      simp only [step, if_pos rfl, if_neg h]
      rfl
  | InListEntry t b => rfl

/-- Once the machine has left `Init`, it can only return to `Init` by
emitting an element. -/
theorem run_nonInit_emits : ∀ (l : List Char) (st : MState), st ≠ .Init →
    (run st l).1 = .Init → (run st l).2 ≠ [] := by
  intro l
  induction l with
  | nil =>
    intro st hst hfin
    exact absurd hfin hst
  | cons c rest ih =>
    intro st hst hfin
    rw [run_cons] at hfin ⊢
    by_cases he : (step st c).2 = []
    · have hne : (step st c).1 ≠ .Init := by
        cases st with
        | Init => exact absurd rfl hst
        | InParagraph s last =>
          by_cases h1 : c = '\n'
          · by_cases h2 : last = '\n'
            · simp [step, h1, h2] at he
            · simp [step, h1, h2]
          · by_cases h2 : last = '\n'
            · by_cases h3 : c = ' '
              · simp [step, h1, h2, h3]
              · by_cases h4 : c = '-' ∨ c = '*'
                · simp [step, h1, h2, h3, h4] at he
                · simp [step, h1, h2, h3, h4]
            · simp [step, h1, h2]
        | InListEntry t b =>
          by_cases h1 : c = '\n'
          · simp [step, h1] at he
          · by_cases h2 : b
            · simp [step, h1, h2]
            · by_cases h3 : rustIsWhitespace c
              · simp [step, h1, h2, h3]
              · simp [step, h1, h2, h3]
      have := ih (step st c).1 hne hfin
      simp [he, this]
    · simp [he]

theorem step_para_mid (t : List Char) (lastc c : Char) (h1 : lastc ≠ '\n')
    (h2 : c ≠ '\n') :
    step (.InParagraph t lastc) c = (.InParagraph (t ++ [c]) c, []) := by
  simp [step, h1, h2]

theorem run_paragraph_no_newline (rest : List Char) (h : '\n' ∉ rest) :
    ∀ (t : List Char) (lastc : Char), lastc ≠ '\n' →
    ∃ lc, run (.InParagraph t lastc) rest = (.InParagraph (t ++ rest) lc, []) ∧
      lc ≠ '\n' := by
  induction rest with
  | nil =>
    intro t lastc hl
    exact ⟨lastc, by simp, hl⟩
  | cons c r ih =>
    intro t lastc hl
    have hc : c ≠ '\n' := fun he => h (he ▸ List.mem_cons_self c r)
    have hr : '\n' ∉ r := fun hm => h (List.mem_cons_of_mem c hm)
    obtain ⟨lc, heq, hlc⟩ := ih hr (t ++ [c]) c hc
    refine ⟨lc, ?_, hlc⟩
    rw [run_cons, step_para_mid t lastc c hl hc, heq]
    simp

/-- A configuration of the scanning loop: remaining input, current state,
elements emitted so far. -/
structure Config where
  input : List Char
  state : MState
  output : List TextElement
deriving DecidableEq

/-- One loop iteration on a configuration; a configuration with no
remaining input is left unchanged. -/
def stepOnce (cfg : Config) : Config :=
  match cfg.input with
  | [] => cfg
  | c :: rest => ⟨rest, (step cfg.state c).1, cfg.output ++ (step cfg.state c).2⟩

/-- Iterating the loop a given number of times. -/
def steps : Nat → Config → Config
  | 0, cfg => cfg
  | n + 1, cfg => steps n (stepOnce cfg)

theorem steps_run : ∀ (l : List Char) (st : MState) (out : List TextElement),
    steps l.length ⟨l, st, out⟩ = ⟨[], (run st l).1, out ++ (run st l).2⟩ := by
  intro l
  induction l with
  | nil => intro st out; simp [steps]
  | cons c rest ih =>
    intro st out
    have h1 : stepOnce ⟨c :: rest, st, out⟩ =
        ⟨rest, (step st c).1, out ++ (step st c).2⟩ := rfl
    rw [List.length_cons]
    show steps rest.length (stepOnce ⟨c :: rest, st, out⟩) = _
    rw [h1, ih (step st c).1 (out ++ (step st c).2), run_cons]
    simp

/-- If a run that starts in `Init` ends in `Init` having emitted nothing,
every consumed character was a newline or a plain space. -/
theorem run_init_silent : ∀ l : List Char, run .Init l = (.Init, []) →
    ∀ c ∈ l, c = '\n' ∨ c = ' ' := by
  intro l
  induction l with
  | nil => intro _ c hc; simp at hc
  | cons c rest ih =>
    intro hrun d hd
    by_cases h1 : c = '\n' ∨ c = ' '
    · have hstep : step .Init c = (.Init, []) := by simp [step, h1]
      rw [run_cons, hstep] at hrun
      simp at hrun
      have hrest : run MState.Init rest = (.Init, []) := by
        cases hrun' : run MState.Init rest
        simp [hrun'] at hrun
        simp [hrun.1, hrun.2]
      rcases List.mem_cons.mp hd with he | hm
      · rw [he]; exact h1
      · exact ih hrest d hm
    · exfalso
      rw [run_cons] at hrun
      have hne : (step .Init c).1 ≠ .Init ∧ (step .Init c).2 = [] := by
        by_cases h2 : c = '-' ∨ c = '*'
        · simp [step, h1, h2]
        · simp [step, h1, h2]
      rw [hne.2] at hrun
      simp at hrun
      cases hq : run (step MState.Init c).1 rest
      rw [hq] at hrun
      simp at hrun
      exact run_nonInit_emits rest (step .Init c).1 hne.1
        (by rw [hq]; exact hrun.1) (by rw [hq]; exact hrun.2)

theorem step_ile_newline (t : List Char) (b : Bool) :
    step (.InListEntry t b) '\n' = (.Init, [.ListEntry t]) := by
  simp [step]

theorem step_init_marker (m : Char) (hm : m = '-' ∨ m = '*') :
    step .Init m = (.InListEntry [] false, []) := by
  rcases hm with h | h <;> subst h <;> decide

/-- Claim C1 counterexample: segmenting `"a "` yields a `Paragraph` whose
text ends in the whitespace character `' '`, so a `Paragraph` may carry
trailing whitespace. -/
theorem claim_C1_counterexample :
    parse "a ".toList = [TextElement.Paragraph "a ".toList] ∧
    "a ".toList.getLast? = some ' ' ∧ rustIsWhitespace ' ' = true := by
  decide

/-- Claim C1 (amended): every `Paragraph` in any result contains no raw
newline and starts with neither a space nor a newline (trailing whitespace
may occur); internal single line breaks fold to one space, as on
`"a\nb\nc\n"`. -/
theorem claim_C1 :
    (∀ l t : List Char, TextElement.Paragraph t ∈ parse l →
      '\n' ∉ t ∧ t ≠ [] ∧ t.head? ≠ some ' ' ∧ t.head? ≠ some '\n') ∧
    parse "a\nb\nc\n".toList = [TextElement.Paragraph "a b c".toList] := by
  constructor
  · intro l t h
    obtain ⟨h1, h2, h3, h4⟩ := parse_paraOK l t h
    exact ⟨h2, h1, h3, h4⟩
  · decide

/-- Claim C1 witness: the amended invariant applied to the input `"ab"`. -/
theorem claim_C1_witness :
    '\n' ∉ "ab".toList ∧ "ab".toList ≠ [] ∧
    "ab".toList.head? ≠ some ' ' ∧ "ab".toList.head? ≠ some '\n' :=
  claim_C1.1 "ab".toList "ab".toList (by decide)

/-- Claim C2: a bullet line (optional leading spaces, marker `-` or `*`,
content, newline) becomes exactly one `ListEntry` holding the content with
its leading whitespace run stripped and the rest verbatim; `" -  item\n"`
gives `ListEntry "item"`, and `*` behaves like `-`. -/
theorem claim_C2 :
    (∀ (k : Nat) (m : Char) (rest : List Char), (m = '-' ∨ m = '*') →
      '\n' ∉ rest →
      parse (List.replicate k ' ' ++ m :: rest ++ ['\n']) =
        [TextElement.ListEntry (rest.dropWhile rustIsWhitespace)]) ∧
    parse " -  item\n".toList = [TextElement.ListEntry "item".toList] ∧
    parse " *  item\n".toList = [TextElement.ListEntry "item".toList] := by
  refine ⟨?_, by decide, by decide⟩
  intro k m rest hm hr
  have hmid : run .Init (m :: (rest ++ ['\n'])) =
      (.Init, [TextElement.ListEntry (rest.dropWhile rustIsWhitespace)]) := by
    rw [run_cons, step_init_marker m hm]
    simp only []
    rw [run_append, run_listentry_fresh rest hr]
    simp only []
    rw [run_cons, step_ile_newline]
    simp
  unfold parse
  rw [show List.replicate k ' ' ++ m :: rest ++ ['\n'] =
      List.replicate k ' ' ++ (m :: (rest ++ ['\n'])) from by simp]
  rw [run_append, run_init_spaces k]
  simp only []
  rw [hmid]
  simp [flush]

/-- Claim C2 witness: the bullet-line law at one leading space, marker `-`,
and content `"  item"`. -/
theorem claim_C2_witness :
    parse (List.replicate 1 ' ' ++ '-' :: "  item".toList ++ ['\n']) =
      [TextElement.ListEntry ("  item".toList.dropWhile rustIsWhitespace)] :=
  claim_C2.1 1 '-' "  item".toList (Or.inl rfl) (by decide)

/-- Claim C3: segmenting `a ++ "\n\n" ++ b` yields the results of
segmenting `a` followed by the results of segmenting `b`. -/
theorem claim_C3 (a b : List Char) :
    parse (a ++ '\n' :: '\n' :: b) = parse a ++ parse b := by
  unfold parse
  rw [show a ++ '\n' :: '\n' :: b = a ++ (['\n', '\n'] ++ b) from by simp]
  rw [run_append, run_append, run_two_newlines]
  simp [List.append_assoc]

/-- Claim C4 counterexample: `"-a"` is non-empty, newline-free, entirely
non-whitespace, yet segments to a `ListEntry`, not a `Paragraph`. -/
theorem claim_C4_counterexample :
    parse "-a".toList = [TextElement.ListEntry "a".toList] ∧
    parse "-a".toList ≠ [TextElement.Paragraph "-a".toList] ∧
    "-a".toList ≠ [] ∧
    ("-a".toList.all fun c => !rustIsWhitespace c) = true := by
  decide

/-- Claim C4 (amended): a non-empty, entirely non-whitespace input whose
first character is not a marker segments to exactly one `Paragraph` whose
text is the input itself. -/
theorem claim_C4 (l : List Char) (h1 : l ≠ [])
    (h2 : ∀ c ∈ l, ¬ rustIsWhitespace c)
    (h3 : l.head? ≠ some '-') (h4 : l.head? ≠ some '*') :
    parse l = [TextElement.Paragraph l] := by
  cases l with
  | nil => exact absurd rfl h1
  | cons c rest =>
    have hcw : ¬ rustIsWhitespace c := h2 c (List.mem_cons_self c rest)
    have hcn : c ≠ '\n' := by intro he; exact hcw (by rw [he]; decide)
    have hcs : c ≠ ' ' := by intro he; exact hcw (by rw [he]; decide)
    have hcm : c ≠ '-' := by simpa using h3
    have hcm2 : c ≠ '*' := by simpa using h4
    have hstep : step .Init c = (.InParagraph [c] c, []) := by
      simp [step, hcn, hcs, hcm, hcm2]
    have hrn : '\n' ∉ rest := fun hmem =>
      h2 '\n' (List.mem_cons_of_mem c hmem) (by decide)
    obtain ⟨lc, heq, _⟩ := run_paragraph_no_newline rest hrn [c] c hcn
    unfold parse
    rw [run_cons, hstep]
    simp only []
    rw [heq]
    simp [flush]

/-- Claim C4 witness: the amended statement applied to the input `"ab"`. -/
theorem claim_C4_witness :
    parse "ab".toList = [TextElement.Paragraph "ab".toList] :=
  claim_C4 "ab".toList (by decide) (by decide) (by decide) (by decide)

/-- Claim C5: in `InParagraph` with a pending newline, a marker character
emits the accumulated `Paragraph` and moves to `InListEntry` with a fresh
empty accumulator; end to end, `"a\n- b"` gives a paragraph then a list
entry. -/
theorem claim_C5 :
    (∀ (s : List Char) (c : Char), (c = '-' ∨ c = '*') →
      step (.InParagraph s '\n') c =
        (.InListEntry [] false, [TextElement.Paragraph s])) ∧
    parse "a\n- b".toList =
      [TextElement.Paragraph "a".toList, TextElement.ListEntry "b".toList] := by
  refine ⟨?_, by decide⟩
  intro s c hc
  have h1 : c ≠ '\n' := by rcases hc with h | h <;> subst h <;> decide
  have h2 : c ≠ ' ' := by rcases hc with h | h <;> subst h <;> decide
  simp [step, h1, h2, hc]

/-- Claim C5 witness: the transition applied with accumulator `"x"` and
marker `'-'`. -/
theorem claim_C5_witness :
    step (.InParagraph "x".toList '\n') '-' =
      (.InListEntry [] false, [TextElement.Paragraph "x".toList]) :=
  claim_C5.1 "x".toList '-' (Or.inl rfl)

/-- Claim C6: the scanning loop is total — on any input it reaches the
end of input in exactly `length` iterations, and flushing the final state
gives exactly `parse`; no error outcome exists in the return type. -/
theorem claim_C6 (l : List Char) :
    (steps l.length ⟨l, .Init, []⟩).input = [] ∧
    (steps l.length ⟨l, .Init, []⟩).output ++
      flush (steps l.length ⟨l, .Init, []⟩).state = parse l := by
  rw [steps_run l .Init []]
  simp [parse]

/-- Claim C7: the empty input segments to the empty sequence, and an empty
result forces every input character to be whitespace or a marker. -/
theorem claim_C7 :
    parse [] = [] ∧
    ∀ l : List Char, parse l = [] → ∀ c ∈ l,
      rustIsWhitespace c = true ∨ c = '-' ∨ c = '*' := by
  refine ⟨rfl, ?_⟩
  intro l hl c hc
  have hsplit : (run .Init l).2 = [] ∧ flush (run .Init l).1 = [] := by
    unfold parse at hl
    exact List.append_eq_nil.mp hl
  have h1 : (run .Init l).1 = .Init := by
    cases hst : (run MState.Init l).1 with
    | Init => rfl
    | InParagraph s last => rw [hst] at hsplit; simp [flush] at hsplit
    | InListEntry t b => rw [hst] at hsplit; simp [flush] at hsplit
  have hrun : run .Init l = (.Init, []) := by
    cases heq : run MState.Init l with
    | mk st out =>
      rw [heq] at h1 hsplit
      simp at h1 hsplit ⊢
      exact ⟨h1, hsplit.1⟩
  rcases run_init_silent l hrun c hc with h | h
  · left; rw [h]; decide
  · left; rw [h]; decide

/-- Claim C7 witness: the only-whitespace consequence applied to the
input `" "`. -/
theorem claim_C7_witness :
    rustIsWhitespace ' ' = true ∨ ' ' = '-' ∨ ' ' = '*' :=
  claim_C7.2 [' '] (by decide) ' ' (by decide)

/-- Claim C8: the end-of-input flush emits the accumulator of any
non-`Init` state verbatim, even when empty; a lone `"-"` segments to
exactly one empty `ListEntry`. -/
theorem claim_C8 :
    (∀ (t : List Char) (b : Bool),
      flush (.InListEntry t b) = [TextElement.ListEntry t]) ∧
    (∀ (t : List Char) (c : Char),
      flush (.InParagraph t c) = [TextElement.Paragraph t]) ∧
    parse ['-'] = [TextElement.ListEntry []] :=
  ⟨fun _ _ => rfl, fun _ _ => rfl, by decide⟩

/-- Claim C9: every `Paragraph` in any result has non-empty text. -/
theorem claim_C9 : ∀ l t : List Char,
    TextElement.Paragraph t ∈ parse l → t ≠ [] := by
  intro l t h
  exact (parse_paraOK l t h).1

/-- Claim C9 witness: applied to the paragraph produced by the input
`"a"`. -/
theorem claim_C9_witness : "a".toList ≠ [] :=
  claim_C9 "a".toList "a".toList (by decide)

/-- Claim C10: in `Init`, any character other than newline, space and the
markers — tab included — seeds a `Paragraph`; `"\tx"` keeps its leading
tab, and in `"a\n\tb"` the tab after a folded newline is appended after
the folding space rather than absorbed. -/
theorem claim_C10 :
    (∀ c : Char, c ≠ '\n' → c ≠ ' ' → c ≠ '-' → c ≠ '*' →
      step .Init c = (.InParagraph [c] c, [])) ∧
    parse "\tx".toList = [TextElement.Paragraph "\tx".toList] ∧
    parse "a\n\tb".toList = [TextElement.Paragraph "a \tb".toList] := by
  refine ⟨?_, by decide, by decide⟩
  intro c h1 h2 h3 h4
  simp [step, h1, h2, h3, h4]

/-- Claim C10 witness: the `Init` seeding rule applied to the tab
character. -/
theorem claim_C10_witness :
    step .Init '\t' = (.InParagraph ['\t'] '\t', []) :=
  claim_C10.1 '\t' (by decide) (by decide) (by decide) (by decide)

end Prlist
